import Mathlib

set_option maxRecDepth 100000

/-!
Verification of the linkify core scanner
(src/src/linkify/core/scanner.js of HitSend/jQuery-linkify).

The scanner builds a character-level automaton once (trie insertion of the
configured literals plus generic fallback edges) and then tokenizes input
strings by a longest-match-with-backtrack walk.  The automaton-state and
token-class modules (state.js, tokens.js) and the build-time literal list
(the TLDS build-time constant) are not part of the available source; they are modelled
from the specification where indicated.  JS strings are embedded as
List Char, JS class instances as plain structures, and the mutable state
graph as an index-addressed list of state records.
-/

/-- Modelled from the spec: the closed token taxonomy (tokens.js is not in
src/).  One tag per lexical category used by the scanner: generic
domain-label text, numeric text, recognized top-level domains, protocol
schemes, the literal localhost, whitespace runs, a newline, the
single-character structural symbols, a shared punctuation class and the
catch-all symbol category. -/
inductive Tok where
  | DOMAIN | LOCALHOST | NUM | PROTOCOL | TLD | WS | NL
  | AT | DOT | PLUS | POUND | QUERY | SLASH | COLON
  | OPENBRACE | OPENBRACKET | OPENPAREN
  | CLOSEBRACE | CLOSEBRACKET | CLOSEPAREN
  | PUNCTUATION | SYM
deriving DecidableEq, Repr

/-- A token: its category tag plus the exact original-case matched text
(scanner.js line 194 constructs the token from a substring of the
original input). -/
structure Token where
  tok : Tok
  text : List Char
deriving DecidableEq, Repr

/-- Modelled from the spec: an automaton state (state.js is not in src/):
a per-character transition table with unique keys, an optional default
(wildcard) successor, and an optional accept tag.  Successors are stored
as indices into the state list. -/
structure State where
  j : List (Char × Nat)
  d : Option Nat
  t : Option Tok
deriving DecidableEq, Repr

/-- The automaton: an index-addressed list of states.  Index 0 is the
start state. -/
abbrev Graph := List State

/-- Character lookup in a transition table (first matching key wins;
keys are unique by construction). -/
def lookupJ : List (Char × Nat) → Char → Option Nat
  | [], _ => none
  | p :: rest, c => if p.1 = c then some p.2 else lookupJ rest c

/-- Read a state record by index (out-of-range reads give the inert
empty state; construction only ever produces in-range indices). -/
def getSt (g : Graph) (i : Nat) : State :=
  g.getD i ⟨[], none, none⟩

/-- Modelled from the spec: transition registration (State.on).  Keys
are unique and an already-mapped character is left unchanged: fallback
wiring applies "on any alphanumeric character not already mapped". -/
def addJump (st : State) (c : Char) (tgt : Nat) : State :=
  if (lookupJ st.j c).isSome then st else { st with j := st.j ++ [(c, tgt)] }

/-- Register one character edge on the state at index i. -/
def onChar (g : Graph) (i : Nat) (c : Char) (tgt : Nat) : Graph :=
  g.set i (addJump (getSt g i) c tgt)

/-- Register one edge per character of a list (State.on with an array
argument: the source mutates the same state's table once per
character). -/
def onChars (g : Graph) (i : Nat) (cs : List Char) (tgt : Nat) : Graph :=
  g.set i (cs.foldl (fun st c => addJump st c tgt) (getSt g i))

/-- Set the default (wildcard) successor of the state at index i
(scanner.js line 135 assigns S_START.d). -/
def setDef (g : Graph) (i : Nat) (tgt : Nat) : Graph :=
  g.set i { getSt g i with d := some tgt }

/-- Append a fresh state with the given accept tag; returns the new
graph and the new state's index (the makeState helper of scanner.js). -/
def mkState (g : Graph) (t : Option Tok) : Graph × Nat :=
  (g ++ [⟨[], none, t⟩], g.length)

/-- Modelled from the spec: State.next — the mapped successor for the
character if present, else the default successor if registered, else
none.  Callers pass lowercased characters. -/
def next (g : Graph) (i : Nat) (c : Char) : Option Nat :=
  match lookupJ (getSt g i).j c with
  | some tgt => some tgt
  | none => (getSt g i).d

/-- Modelled from the spec: State.isAccepting — true iff an accept tag
is set. -/
def accepts (g : Graph) (i : Nat) : Bool :=
  (getSt g i).t.isSome

/-- Modelled from the spec: State.emit — the token category of the
accept tag.  Only ever used on accepting states, where the tag is
present. -/
def emit (g : Graph) (i : Nat) : Tok :=
  (getSt g i).t.getD Tok.SYM

/-- Modelled from the spec: stateify / insertLiteral (state.js is not in
src/).  Walks the word one character at a time from the given state,
reusing an existing transition while the prefix already exists, then
creates a fresh state per remaining character; newly created non-final
states are tagged with the intermediate tag, the final state of the word
with the tail tag.  Returns the new graph and the indices of the newly
created states. -/
def stateify (g : Graph) (w : List Char) (s : Nat) (tailT interT : Tok) :
    Graph × List Nat :=
  match w with
  | [] => (g, [])
  | c :: rest =>
    match next g s c with
    | some s2 => stateify g rest s2 tailT interT
    | none =>
      let p := mkState g (some (if rest.isEmpty then tailT else interT))
      let g2 := onChar p.1 s c p.2
      let r := stateify g2 rest p.2 tailT interT
      (r.1, p.2 :: r.2)

/-- scanner.js line 15: the decimal digits. -/
def NUMS : List Char := ("0123456789").toList

/-- scanner.js line 16: lowercase alphanumerics. -/
def ALPHANUM : List Char := ("0123456789abcdefghijklmnopqrstuvwxyz").toList

/-- scanner.js line 17: non-newline whitespace (space, form feed,
carriage return, tab, vertical tab). -/
def WHITESPACE : List Char := [' ', '\x0c', '\r', '\t', '\x0b']

/-- Modelled from the spec: the build-time top-level-domain literal list
(the TLDS constant of scanner.js line 13 is substituted at build time from a
configuration collaborator and is not in src/).  A small representative
list is used, alphabetically ordered as the source comment assumes,
containing the prefix-sharing pair co / com and the literals needed by
the specification's examples. -/
def tlds : List (List Char) := [("at").toList, ("be").toList,
  ("co").toList, ("com").toList, ("es").toList]

/-- Builds the scanner automaton, mirroring the construction sequence of
scanner.js lines 20-135 statement by statement, parameterized by the
top-level-domain literal list. -/
def buildScanner (tldList : List (List Char)) : Graph :=
  -- lines 32-37: frequently used states, in declaration order
  let r := mkState ([] : Graph) none  -- S_START (makeStartState: no accept tag)
  let g := r.1
  let r := mkState g (some Tok.NUM); let g := r.1; let sNUM := r.2
  let r := mkState g (some Tok.DOMAIN); let g := r.1; let sDOMAIN := r.2
  let r := mkState g none; let g := r.1; let sHYPHEN := r.2  -- S_DOMAIN_HYPHEN
  let r := mkState g (some Tok.WS); let g := r.1; let sWS := r.2
  -- lines 40-54: one-hop symbol edges from the start state
  let r := mkState g (some Tok.AT); let g := onChar r.1 0 '@' r.2
  let r := mkState g (some Tok.DOT); let g := onChar r.1 0 '.' r.2
  let r := mkState g (some Tok.PLUS); let g := onChar r.1 0 '+' r.2
  let r := mkState g (some Tok.POUND); let g := onChar r.1 0 '#' r.2
  let r := mkState g (some Tok.QUERY); let g := onChar r.1 0 '?' r.2
  let r := mkState g (some Tok.SLASH); let g := onChar r.1 0 '/' r.2
  let r := mkState g (some Tok.COLON); let g := onChar r.1 0 ':' r.2
  let r := mkState g (some Tok.OPENBRACE); let g := onChar r.1 0 '\x7b' r.2
  let r := mkState g (some Tok.OPENBRACKET); let g := onChar r.1 0 '[' r.2
  let r := mkState g (some Tok.OPENPAREN); let g := onChar r.1 0 '(' r.2
  let r := mkState g (some Tok.CLOSEBRACE); let g := onChar r.1 0 '\x7d' r.2
  let r := mkState g (some Tok.CLOSEBRACKET); let g := onChar r.1 0 ']' r.2
  let r := mkState g (some Tok.CLOSEPAREN); let g := onChar r.1 0 ')' r.2
  let r := mkState g (some Tok.PUNCTUATION)
  let g := onChars r.1 0 [',', ';', '!', '\"'] r.2
  -- lines 58-63: newline and collapsing whitespace
  let r := mkState g (some Tok.NL); let g := onChar r.1 0 '\n' r.2
  let g := onChars g 0 WHITESPACE sWS
  let g := onChars g sWS WHITESPACE sWS
  -- lines 67-70: top-level-domain literals
  let td := tldList.foldl (fun acc w =>
    let r := stateify acc.1 w 0 Tok.TLD Tok.DOMAIN
    (r.1, acc.2 ++ r.2)) (g, ([] : List Nat))
  let g := td.1
  let domainStates := td.2
  -- lines 74-81: protocol scheme literals, collected with the others
  let rf := stateify g (("file").toList) 0 Tok.DOMAIN Tok.DOMAIN
  let g := rf.1
  let rt := stateify g (("ftp").toList) 0 Tok.DOMAIN Tok.DOMAIN
  let g := rt.1
  let rh := stateify g (("http").toList) 0 Tok.DOMAIN Tok.DOMAIN
  let g := rh.1
  let domainStates := domainStates ++ rf.2 ++ rt.2 ++ rh.2
  -- lines 84-88: final scheme states (array pop) and the two extra states
  let sFILE := rf.2.getLastD 0
  let sFTP := rt.2.getLastD 0
  let sHTTP := rh.2.getLastD 0
  let r := mkState g (some Tok.DOMAIN); let g := r.1; let sSECURE := r.2
  let r := mkState g (some Tok.PROTOCOL); let g := r.1; let sFULL := r.2
  -- lines 91-97: secure variants and the colon edge to the protocol state
  let g := onChar g sFTP 's' sSECURE
  let g := onChar g sFTP ':' sFULL
  let g := onChar g sHTTP 's' sSECURE
  let g := onChar g sHTTP ':' sFULL
  -- line 99
  let domainStates := domainStates ++ [sSECURE]
  -- lines 102-103
  let g := onChar g sFILE ':' sFULL
  let g := onChar g sSECURE ':' sFULL
  -- lines 106-107: localhost
  let rl := stateify g (("localhost").toList) 0 Tok.LOCALHOST Tok.DOMAIN
  let g := rl.1
  let domainStates := domainStates ++ rl.2
  -- lines 112-120: numeric and domain continuation wiring
  let g := onChars g 0 NUMS sNUM
  let g := onChar g sNUM '-' sHYPHEN
  let g := onChars g sNUM NUMS sNUM
  let g := onChars g sNUM ALPHANUM sDOMAIN
  let g := onChar g sDOMAIN '-' sHYPHEN
  let g := onChars g sDOMAIN ALPHANUM sDOMAIN
  -- lines 123-127: fallback wiring on every literal-generated state
  let g := domainStates.foldl
    (fun gAcc i => onChars (onChar gAcc i '-' sHYPHEN) i ALPHANUM sDOMAIN) g
  -- lines 129-132: hyphen state wiring (no accept tag)
  let g := onChar g sHYPHEN '-' sHYPHEN
  let g := onChars g sHYPHEN NUMS sDOMAIN
  let g := onChars g sHYPHEN ALPHANUM sDOMAIN
  -- line 135: the start state's default one-character symbol transition
  let r := mkState g (some Tok.SYM)
  setDef r.1 0 r.2

/-- The scanner automaton of the source, built once (scanner.js runs the
construction at module load). -/
def theGraph : Graph := buildScanner tlds

/-- scanner.js line 151: the selective lowercasing used for matching.
The regular expression [A-Z] matches exactly code points 65-90; each is
replaced by its lowercase form (code point + 32). -/
def lowerChar (c : Char) : Char :=
  if 65 ≤ c.toNat ∧ c.toNat ≤ 90 then Char.ofNat (c.toNat + 32) else c

/-- The inner matching loop of run (scanner.js lines 160-182): follow
next while a successor exists, counting the token length and tracking
the latest accepting state and the number of characters consumed since
it. -/
def innerLoop (g : Graph) (state : Nat) (cs : List Char) (tokenLength : Nat)
    (latestAccepting : Option Nat) (sinceAccepts : Int) :
    Nat × Option Nat × Int :=
  match cs with
  | [] => (tokenLength, latestAccepting, sinceAccepts)
  | c :: rest =>
    match next g state c with
    | none => (tokenLength, latestAccepting, sinceAccepts)
    | some st2 =>
      if accepts g st2 then
        innerLoop g st2 rest (tokenLength + 1) (some st2) 0
      else if 0 ≤ sinceAccepts then
        innerLoop g st2 rest (tokenLength + 1) latestAccepting (sinceAccepts + 1)
      else
        innerLoop g st2 rest (tokenLength + 1) latestAccepting sinceAccepts

/-- The outer tokenization loop of run (scanner.js lines 158-195).  Each
iteration scans one token from the cursor position, rolls back to the
latest accepting state and emits the corresponding slice of the original
text.  The loop is driven by fuel (one unit per outer iteration); since
every iteration that emits consumes at least one character, fuel equal
to the input length is exact.  When no accepting state was visited
(sinceAccepts < 0, impossible from the start state: its default
transition leads to an accepting state) the source's continue would loop
forever emitting nothing more, which the fuel model reproduces as an
empty remainder. -/
def runAux (g : Graph) (start : Nat) : Nat → List Char → List Char → List Token
  | 0, _, _ => []
  | fuel + 1, lower, orig =>
    if lower.isEmpty then [] else
    match innerLoop g start lower 0 none (-1) with
    | (_, none, _) => runAux g start fuel lower orig
    | (tokenLength, some acc, sinceAccepts) =>
      let n := tokenLength - sinceAccepts.toNat
      ⟨emit g acc, orig.take n⟩ :: runAux g start fuel (lower.drop n) (orig.drop n)

/-- run over an explicit automaton: derive the lowercased working copy
for matching, keep the original for token texts (scanner.js lines
145-198). -/
def runWith (g : Graph) (str : List Char) : List Token :=
  runAux g 0 str.length (str.map lowerChar) str

/-- The exported run of scanner.js: scan over the module's automaton. -/
def run (str : List Char) : List Token :=
  runWith theGraph str

/-! ## Analysis of the matching walk

The inner loop follows a deterministic path through the automaton.  The
definitions below name that path and the longest accepting prefix along
it; they are related to the loop counters of the source by the
innerLoop lemmas that follow. -/

/-- The sequence of states visited when walking the automaton from state
s along the given characters, for as long as transitions exist. -/
def walkStates (g : Graph) (s : Nat) : List Char → List Nat
  | [] => []
  | c :: rest =>
    match next g s c with
    | none => []
    | some s2 => s2 :: walkStates g s2 rest

/-- Number of characters the walk consumes before stalling. -/
def wLen (g : Graph) (s : Nat) : List Char → Nat
  | [] => 0
  | c :: rest =>
    match next g s c with
    | none => 0
    | some s2 => wLen g s2 rest + 1

/-- The longest prefix of the input whose walk from s ends on an
accepting state: returns its length together with that accepting state,
or none when no accepting state is visited at all. -/
def bestAccept (g : Graph) (s : Nat) : List Char → Option (Nat × Nat)
  | [] => none
  | c :: rest =>
    match next g s c with
    | none => none
    | some s2 =>
      match bestAccept g s2 rest with
      | some ka => some (ka.1 + 1, ka.2)
      | none => if accepts g s2 then some (1, s2) else none

/-- The rollback distance of one outer-loop iteration: the value of
sinceAccepts when the inner loop stalls (the source subtracts it from
the cursor and the token length). -/
def rollbackOf (lower : List Char) : Int :=
  (innerLoop theGraph 0 lower 0 none (-1)).2.2

theorem wLen_eq_length (g : Graph) :
    ∀ (cs : List Char) (s : Nat), wLen g s cs = (walkStates g s cs).length := by
  intro cs
  induction cs with
  | nil => intro s; rfl
  | cons c rest ih =>
    intro s
    unfold wLen walkStates
    cases hn : next g s c with
    | none => rfl
    | some s2 => simp [ih s2]

theorem innerLoop_reject (g : Graph) :
    ∀ (cs : List Char) (s tl : Nat) (la : Option Nat) (sa : Int),
    bestAccept g s cs = none →
    innerLoop g s cs tl la sa =
      (tl + wLen g s cs, la,
        if 0 ≤ sa then sa + (wLen g s cs : Int) else sa) := by
  intro cs
  induction cs with
  | nil =>
    intro s tl la sa _
    simp [innerLoop, wLen, ite_self]
  | cons c rest ih =>
    intro s tl la sa h
    unfold bestAccept at h
    unfold innerLoop wLen
    cases hn : next g s c with
    | none => simp [ite_self]
    | some s2 =>
      rw [hn] at h
      simp only at h ⊢
      cases hb : bestAccept g s2 rest with
      | some ka => rw [hb] at h; simp at h
      | none =>
        rw [hb] at h
        by_cases hacc : accepts g s2 = true
        · rw [if_pos hacc] at h; simp at h
        · rw [if_neg hacc] at h
          rw [if_neg hacc]
          by_cases hsa : (0 : Int) ≤ sa
          · rw [if_pos hsa, ih s2 (tl + 1) la (sa + 1) hb,
              if_pos (by omega : (0:Int) ≤ sa + 1), if_pos hsa]
            refine Prod.ext (by omega) (Prod.ext rfl ?_)
            push_cast
            omega
          · rw [if_neg hsa, ih s2 (tl + 1) la sa hb, if_neg hsa, if_neg hsa]
            exact Prod.ext (by omega) (Prod.ext rfl rfl)

theorem innerLoop_accept (g : Graph) :
    ∀ (cs : List Char) (s k a tl : Nat) (la : Option Nat) (sa : Int),
    bestAccept g s cs = some (k, a) →
    innerLoop g s cs tl la sa =
      (tl + wLen g s cs, some a, ((wLen g s cs - k : Nat) : Int)) := by
  intro cs
  induction cs with
  | nil => intro s k a tl la sa h; simp [bestAccept] at h
  | cons c rest ih =>
    intro s k a tl la sa h
    unfold bestAccept at h
    unfold innerLoop wLen
    cases hn : next g s c with
    | none => rw [hn] at h; simp at h
    | some s2 =>
      rw [hn] at h
      simp only at h ⊢
      cases hb : bestAccept g s2 rest with
      | some ka =>
        rw [hb] at h
        simp only [Option.some.injEq, Prod.mk.injEq] at h
        obtain ⟨hk, ha⟩ := h
        subst hk
        subst ha
        by_cases hacc : accepts g s2 = true
        · rw [if_pos hacc, ih s2 ka.1 ka.2 (tl + 1) (some s2) 0 hb]
          refine Prod.ext (by omega) (Prod.ext rfl ?_)
          push_cast
          omega
        · rw [if_neg hacc]
          by_cases hsa : (0 : Int) ≤ sa
          · rw [if_pos hsa, ih s2 ka.1 ka.2 (tl + 1) la (sa + 1) hb]
            refine Prod.ext (by omega) (Prod.ext rfl ?_)
            push_cast
            omega
          · rw [if_neg hsa, ih s2 ka.1 ka.2 (tl + 1) la sa hb]
            refine Prod.ext (by omega) (Prod.ext rfl ?_)
            push_cast
            omega
      | none =>
        rw [hb] at h
        by_cases hacc : accepts g s2 = true
        · rw [if_pos hacc] at h
          simp only [Option.some.injEq, Prod.mk.injEq] at h
          obtain ⟨hk, ha⟩ := h
          subst hk
          subst ha
          rw [if_pos hacc, innerLoop_reject g rest s2 (tl + 1) (some s2) 0 hb]
          rw [if_pos (by omega : (0:Int) ≤ 0)]
          refine Prod.ext (by omega) (Prod.ext rfl ?_)
          push_cast
          omega
        · rw [if_neg hacc] at h; simp at h


theorem wLen_le_length (g : Graph) :
    ∀ (cs : List Char) (s : Nat), wLen g s cs ≤ cs.length := by
  intro cs
  induction cs with
  | nil => intro s; simp [wLen]
  | cons c rest ih =>
    intro s
    unfold wLen
    cases hn : next g s c with
    | none => simp
    | some s2 => simpa using ih s2

theorem bestAccept_pos (g : Graph) :
    ∀ (cs : List Char) (s k a : Nat), bestAccept g s cs = some (k, a) →
    1 ≤ k ∧ k ≤ wLen g s cs ∧ accepts g a = true := by
  intro cs
  induction cs with
  | nil => intro s k a h; simp [bestAccept] at h
  | cons c rest ih =>
    intro s k a h
    unfold bestAccept at h
    unfold wLen
    cases hn : next g s c with
    | none => rw [hn] at h; simp at h
    | some s2 =>
      rw [hn] at h
      simp only at h ⊢
      cases hb : bestAccept g s2 rest with
      | some ka =>
        rw [hb] at h
        simp only [Option.some.injEq, Prod.mk.injEq] at h
        obtain ⟨hk, ha⟩ := h
        subst hk
        subst ha
        have hr := ih s2 ka.1 ka.2 hb
        exact ⟨by omega, by omega, hr.2.2⟩
      | none =>
        rw [hb] at h
        by_cases hacc : accepts g s2 = true
        · rw [if_pos hacc] at h
          simp only [Option.some.injEq, Prod.mk.injEq] at h
          obtain ⟨hk, ha⟩ := h
          subst hk
          subst ha
          exact ⟨by omega, by omega, hacc⟩
        · rw [if_neg hacc] at h; simp at h

theorem runAux_cons (g : Graph) (start fuel k a : Nat) (lower orig : List Char)
    (hf : 1 ≤ fuel) (hb : bestAccept g start lower = some (k, a)) :
    runAux g start fuel lower orig =
      ⟨emit g a, orig.take k⟩ ::
        runAux g start (fuel - 1) (lower.drop k) (orig.drop k) := by
  cases lower with
  | nil => simp [bestAccept] at hb
  | cons c rest =>
    cases fuel with
    | zero => simp at hf
    | succ f =>
      have hp := bestAccept_pos g (c :: rest) start k a hb
      simp only [runAux, List.isEmpty_cons, Bool.false_eq_true, if_false]
      rw [innerLoop_accept g (c :: rest) start k a 0 none (-1) hb]
      simp only [Nat.zero_add, Int.toNat_ofNat, Nat.succ_sub_one]
      rw [Nat.sub_sub_self hp.2.1]

/-- Every transition out of the start state (character-specific or the
default) leads to an accepting state: checked on the concrete
automaton. -/
def startOK : Bool :=
  ((getSt theGraph 0).j.all fun p => accepts theGraph p.2) &&
    (match (getSt theGraph 0).d with
     | some t => accepts theGraph t
     | none => false)

theorem startOK_true : startOK = true := by decide

theorem lookupJ_mem :
    ∀ (j : List (Char × Nat)) (c : Char) (t : Nat),
    lookupJ j c = some t → (c, t) ∈ j := by
  intro j
  induction j with
  | nil => intro c t h; simp [lookupJ] at h
  | cons p rest ih =>
    intro c t h
    unfold lookupJ at h
    by_cases hc : p.1 = c
    · rw [if_pos hc] at h
      simp only [Option.some.injEq] at h
      subst h
      subst hc
      exact List.mem_cons_self p rest
    · rw [if_neg hc] at h
      exact List.mem_cons_of_mem p (ih c t h)

theorem next_start_some (c : Char) :
    ∃ s2, next theGraph 0 c = some s2 ∧ accepts theGraph s2 = true := by
  have hok := startOK_true
  unfold startOK at hok
  simp only [Bool.and_eq_true] at hok
  unfold next
  cases hl : lookupJ (getSt theGraph 0).j c with
  | some t =>
    refine ⟨t, rfl, ?_⟩
    have hm := lookupJ_mem _ _ _ hl
    exact List.all_eq_true.mp hok.1 (c, t) hm
  | none =>
    cases hd : (getSt theGraph 0).d with
    | none => rw [hd] at hok; simp at hok
    | some t =>
      rw [hd] at hok
      exact ⟨t, rfl, hok.2⟩

theorem bestAccept_start_cons (c : Char) (cs : List Char) :
    ∃ ka, bestAccept theGraph 0 (c :: cs) = some ka := by
  obtain ⟨s2, hn, hacc⟩ := next_start_some c
  unfold bestAccept
  rw [hn]
  simp only
  cases hb : bestAccept theGraph s2 cs with
  | some ka => exact ⟨(ka.1 + 1, ka.2), rfl⟩
  | none => exact ⟨(1, s2), by rw [if_pos hacc]⟩

theorem runAux_join :
    ∀ (fuel : Nat) (lower orig : List Char),
    lower.length ≤ fuel → lower.length = orig.length →
    ((runAux theGraph 0 fuel lower orig).map Token.text).flatten = orig := by
  intro fuel
  induction fuel with
  | zero =>
    intro lower orig h1 h2
    have hl : lower = [] := List.length_eq_zero.mp (Nat.le_zero.mp h1)
    subst hl
    have ho : orig = [] := List.length_eq_zero.mp h2.symm
    subst ho
    simp [runAux]
  | succ f ih =>
    intro lower orig h1 h2
    cases lower with
    | nil =>
      have ho : orig = [] := List.length_eq_zero.mp h2.symm
      subst ho
      simp [runAux]
    | cons c rest =>
      obtain ⟨⟨k, a⟩, hb⟩ := bestAccept_start_cons c rest
      rw [runAux_cons theGraph 0 (f + 1) k a (c :: rest) orig (by omega) hb]
      have hp := bestAccept_pos theGraph (c :: rest) 0 k a hb
      have hwl := wLen_le_length theGraph (c :: rest) 0
      simp only [List.map_cons, List.flatten_cons, Nat.add_sub_cancel]
      rw [ih ((c :: rest).drop k) (orig.drop k)
        (by simp only [List.length_drop]; simp at h1 ⊢; omega)
        (by simp only [List.length_drop, h2])]
      exact List.take_append_drop k orig

/-- C1: for every input string, the token sequence returned by run tiles
the input exactly: concatenating the tokens' texts in order reproduces
the input character for character, with no gaps and no overlaps. -/
theorem scanner_coverage_tiling (str : List Char) :
    ((run str).map Token.text).flatten = str := by
  unfold run runWith
  exact runAux_join str.length (str.map lowerChar) str (by simp) (by simp)

theorem bestAccept_get (g : Graph) :
    ∀ (cs : List Char) (s k a : Nat), bestAccept g s cs = some (k, a) →
    (walkStates g s cs)[k - 1]? = some a := by
  intro cs
  induction cs with
  | nil => intro s k a h; simp [bestAccept] at h
  | cons c rest ih =>
    intro s k a h
    unfold bestAccept at h
    unfold walkStates
    cases hn : next g s c with
    | none => rw [hn] at h; simp at h
    | some s2 =>
      rw [hn] at h
      simp only at h ⊢
      cases hb : bestAccept g s2 rest with
      | some ka =>
        rw [hb] at h
        simp only [Option.some.injEq, Prod.mk.injEq] at h
        obtain ⟨hk, ha⟩ := h
        subst hk
        subst ha
        have hm := (bestAccept_pos g rest s2 ka.1 ka.2 hb).1
        obtain ⟨m, hm2⟩ : ∃ m, ka.1 = m + 1 := ⟨ka.1 - 1, by omega⟩
        rw [hm2]
        simp only [Nat.add_sub_cancel, List.getElem?_cons_succ]
        simpa using ih s2 (m + 1) ka.2 (by rw [← hm2]; exact hb)
      | none =>
        rw [hb] at h
        by_cases hacc : accepts g s2 = true
        · rw [if_pos hacc] at h
          simp only [Option.some.injEq, Prod.mk.injEq] at h
          obtain ⟨hk, ha⟩ := h
          subst hk
          subst ha
          simp
        · rw [if_neg hacc] at h; simp at h

theorem bestAccept_none_all (g : Graph) :
    ∀ (cs : List Char) (s : Nat), bestAccept g s cs = none →
    (walkStates g s cs).all (fun b => !accepts g b) = true := by
  intro cs
  induction cs with
  | nil => intro s _; simp [walkStates]
  | cons c rest ih =>
    intro s h
    unfold bestAccept at h
    unfold walkStates
    cases hn : next g s c with
    | none => simp
    | some s2 =>
      rw [hn] at h
      simp only at h ⊢
      cases hb : bestAccept g s2 rest with
      | some ka => rw [hb] at h; simp at h
      | none =>
        rw [hb] at h
        by_cases hacc : accepts g s2 = true
        · rw [if_pos hacc] at h; simp at h
        · rw [if_neg hacc] at h
          simp only [List.all_cons, Bool.and_eq_true]
          exact ⟨by simp [hacc], ih s2 hb⟩

theorem bestAccept_drop_all (g : Graph) :
    ∀ (cs : List Char) (s k a : Nat), bestAccept g s cs = some (k, a) →
    ((walkStates g s cs).drop k).all (fun b => !accepts g b) = true := by
  intro cs
  induction cs with
  | nil => intro s k a h; simp [bestAccept] at h
  | cons c rest ih =>
    intro s k a h
    unfold bestAccept at h
    unfold walkStates
    cases hn : next g s c with
    | none => rw [hn] at h; simp at h
    | some s2 =>
      rw [hn] at h
      simp only at h ⊢
      cases hb : bestAccept g s2 rest with
      | some ka =>
        rw [hb] at h
        simp only [Option.some.injEq, Prod.mk.injEq] at h
        obtain ⟨hk, ha⟩ := h
        subst hk
        subst ha
        simpa using ih s2 ka.1 ka.2 hb
      | none =>
        rw [hb] at h
        by_cases hacc : accepts g s2 = true
        · rw [if_pos hacc] at h
          simp only [Option.some.injEq, Prod.mk.injEq] at h
          obtain ⟨hk, ha⟩ := h
          subst hk
          subst ha
          simpa using bestAccept_none_all g rest s2 hb
        · rw [if_neg hacc] at h; simp at h

theorem accepts_emit (g : Graph) (a : Nat) (h : accepts g a = true) :
    (getSt g a).t = some (emit g a) := by
  unfold accepts at h
  unfold emit
  cases ht : (getSt g a).t with
  | none => rw [ht] at h; simp at h
  | some x => simp

/-- C2: at every outer-loop iteration the emitted token covers the
longest prefix of the remaining input whose walk from the start state
ends on an accepting state: the walk stalls, the cursor rolls back to
the most recently visited accepting state (every state the walk visited
past it is non-accepting), and the token's category is that state's
accept tag; in particular example.com scans as a domain-label token
example, a dot token and a distinct top-level-domain token com, not one
undivided token. -/
theorem scanner_longest_match :
    (∀ (lower orig : List Char) (fuel k a : Nat),
      lower.length ≤ fuel →
      bestAccept theGraph 0 lower = some (k, a) →
      runAux theGraph 0 fuel lower orig =
          ⟨emit theGraph a, orig.take k⟩ ::
            runAux theGraph 0 (fuel - 1) (lower.drop k) (orig.drop k) ∧
        1 ≤ k ∧
        (walkStates theGraph 0 lower)[k - 1]? = some a ∧
        accepts theGraph a = true ∧
        (getSt theGraph a).t = some (emit theGraph a) ∧
        ((walkStates theGraph 0 lower).drop k).all
          (fun b => !accepts theGraph b) = true) ∧
    run (("example.com").toList) =
      [⟨Tok.DOMAIN, ("example").toList⟩, ⟨Tok.DOT, (".").toList⟩,
       ⟨Tok.TLD, ("com").toList⟩] := by
  constructor
  · intro lower orig fuel k a hf hb
    have hp := bestAccept_pos theGraph lower 0 k a hb
    have hf1 : 1 ≤ fuel := by
      cases lower with
      | nil => simp [bestAccept] at hb
      | cons c rest => simp at hf; omega
    exact ⟨runAux_cons theGraph 0 fuel k a lower orig hf1 hb, hp.1,
      bestAccept_get theGraph lower 0 k a hb, hp.2.2,
      accepts_emit theGraph a hp.2.2,
      bestAccept_drop_all theGraph lower 0 k a hb⟩
  · decide

theorem scanner_longest_match_witness :
    runAux theGraph 0 11 (("example.com").toList) (("example.com").toList) =
        ⟨emit theGraph 2, (("example.com").toList).take 7⟩ ::
          runAux theGraph 0 (11 - 1) ((("example.com").toList).drop 7)
            ((("example.com").toList).drop 7) ∧
      1 ≤ 7 ∧
      (walkStates theGraph 0 (("example.com").toList))[7 - 1]? = some 2 ∧
      accepts theGraph 2 = true ∧
      (getSt theGraph 2).t = some (emit theGraph 2) ∧
      ((walkStates theGraph 0 (("example.com").toList)).drop 7).all
        (fun b => !accepts theGraph b) = true :=
  scanner_longest_match.1 (("example.com").toList) (("example.com").toList)
    11 7 2 (by decide) (by decide)

theorem getSt_out (g : Graph) (i : Nat) (h : ¬ i < g.length) :
    getSt g i = ⟨[], none, none⟩ := by
  unfold getSt
  exact List.getD_eq_default _ _ (by omega)

/-- No transition of the built automaton (character edge or default)
leads back to the start state. -/
def noEdgeToStart : Bool :=
  (List.range theGraph.length).all fun i =>
    ((getSt theGraph i).j.all fun p => p.2 != 0) &&
      ((getSt theGraph i).d != some 0)

theorem noEdgeToStart_true : noEdgeToStart = true := by decide

/-- Only the start state carries a default transition. -/
def onlyStartDefault : Bool :=
  (List.range theGraph.length).all fun i =>
    (i == 0) || ((getSt theGraph i).d == none)

theorem onlyStartDefault_true : onlyStartDefault = true := by decide

/-- Extract a per-edge boolean fact, checked over the whole automaton,
for one concrete transition-table hit. -/
theorem jump_fact (P : Char × Nat → Bool)
    (hall : (List.range theGraph.length).all
      (fun i => (getSt theGraph i).j.all P) = true)
    (p : Nat) (c : Char) (a : Nat)
    (hl : lookupJ (getSt theGraph p).j c = some a) : P (c, a) = true := by
  by_cases hp : p < theGraph.length
  · have h1 := List.all_eq_true.mp hall p (List.mem_range.mpr hp)
    exact List.all_eq_true.mp h1 (c, a) (lookupJ_mem _ _ _ hl)
  · rw [getSt_out theGraph p hp] at hl
    simp [lookupJ] at hl

theorem default_none_of_ne_start (p : Nat) (hp : p ≠ 0) :
    (getSt theGraph p).d = none := by
  by_cases hlt : p < theGraph.length
  · have h1 := List.all_eq_true.mp onlyStartDefault_true p (List.mem_range.mpr hlt)
    simp only [Bool.or_eq_true, beq_iff_eq] at h1
    rcases h1 with h1 | h1
    · exact absurd h1 hp
    · exact h1
  · rw [getSt_out theGraph p hlt]

theorem next_eq_lookup (p : Nat) (hp : p ≠ 0) (c : Char) :
    next theGraph p c = lookupJ (getSt theGraph p).j c := by
  unfold next
  cases hl : lookupJ (getSt theGraph p).j c with
  | some t => rfl
  | none => simp [default_none_of_ne_start p hp]

theorem next_target_ne_start (q : Nat) (c : Char) (t : Nat)
    (h : next theGraph q c = some t) : t ≠ 0 := by
  by_cases hq : q < theGraph.length
  · have h1 := List.all_eq_true.mp noEdgeToStart_true q (List.mem_range.mpr hq)
    simp only [Bool.and_eq_true] at h1
    unfold next at h
    cases hl : lookupJ (getSt theGraph q).j c with
    | some t2 =>
      rw [hl] at h
      simp only [Option.some.injEq] at h
      subst h
      have h2 := List.all_eq_true.mp h1.1 (c, t2) (lookupJ_mem _ _ _ hl)
      simpa using h2
    | none =>
      rw [hl] at h
      simp only at h
      intro ht
      subst ht
      rw [h] at h1
      simp at h1
  · unfold next at h
    rw [getSt_out theGraph q hq] at h
    simp [lookupJ] at h

/-- The character of the walk step that enters the accepting state of a
longest match: either the match has length one and the step leaves the
walk's origin, or the step leaves a state that is itself a transition
target. -/
theorem bestAccept_last_edge (g : Graph) :
    ∀ (cs : List Char) (s k a : Nat), bestAccept g s cs = some (k, a) →
    ∃ c, cs[k - 1]? = some c ∧
      ((k = 1 ∧ next g s c = some a) ∨
        (2 ≤ k ∧ ∃ p q d, next g q d = some p ∧ next g p c = some a)) := by
  intro cs
  induction cs with
  | nil => intro s k a h; simp [bestAccept] at h
  | cons c rest ih =>
    intro s k a h
    unfold bestAccept at h
    cases hn : next g s c with
    | none => rw [hn] at h; simp at h
    | some s2 =>
      rw [hn] at h
      simp only at h
      cases hb : bestAccept g s2 rest with
      | some ka =>
        rw [hb] at h
        simp only [Option.some.injEq, Prod.mk.injEq] at h
        obtain ⟨hk, ha⟩ := h
        obtain ⟨c2, hc2, hrest⟩ := ih s2 ka.1 ka.2 hb
        have hm := (bestAccept_pos g rest s2 ka.1 ka.2 hb).1
        refine ⟨c2, ?_, ?_⟩
        · rw [← hk]
          simp only [Nat.add_sub_cancel]
          obtain ⟨m, hm2⟩ : ∃ m, ka.1 = m + 1 := ⟨ka.1 - 1, by omega⟩
          rw [hm2]
          simp only [List.getElem?_cons_succ]
          simpa [hm2] using hc2
        · right
          rcases hrest with ⟨h1, h2⟩ | ⟨h1, p, q, d, h2, h3⟩
          · rw [← ha]
            exact ⟨by omega, s2, s, c, hn, h2⟩
          · rw [← ha]
            exact ⟨by omega, p, q, d, h2, h3⟩
      | none =>
        rw [hb] at h
        by_cases hacc : accepts g s2 = true
        · rw [if_pos hacc] at h
          simp only [Option.some.injEq, Prod.mk.injEq] at h
          obtain ⟨hk, ha⟩ := h
          refine ⟨c, by rw [← hk]; simp, Or.inl ⟨hk.symm, by rw [← ha]; exact hn⟩⟩
        · rw [if_neg hacc] at h; simp at h

/-- Every token of a scan arises from one outer-loop iteration: it is
the longest-match slice of the original text remaining at that
iteration.  Any property of such slices holds of every emitted token. -/
theorem runAux_tokens (Q : Token → Prop)
    (h : ∀ (orig : List Char) (k a : Nat),
      bestAccept theGraph 0 (orig.map lowerChar) = some (k, a) →
      Q ⟨emit theGraph a, orig.take k⟩) :
    ∀ (fuel : Nat) (orig : List Char) (tk : Token),
      tk ∈ runAux theGraph 0 fuel (orig.map lowerChar) orig → Q tk := by
  intro fuel
  induction fuel with
  | zero => intro orig tk htk; simp [runAux] at htk
  | succ f ih =>
    intro orig tk htk
    cases orig with
    | nil => simp [runAux] at htk
    | cons o rest =>
      simp only [List.map_cons] at htk
      obtain ⟨⟨k, a⟩, hb⟩ := bestAccept_start_cons (lowerChar o) (rest.map lowerChar)
      rw [runAux_cons theGraph 0 (f + 1) k a _ _ (by omega) hb] at htk
      simp only [Nat.add_sub_cancel, List.mem_cons] at htk
      rcases htk with htk | htk
      · subst htk
        exact h (o :: rest) k a (by simpa using hb)
      · have hd : (lowerChar o :: rest.map lowerChar).drop k =
            ((o :: rest).drop k).map lowerChar := by
          rw [← List.map_cons, List.map_drop]
        rw [hd] at htk
        exact ih ((o :: rest).drop k) tk htk

/-- C10: every token emitted by run has non-empty text: the start state
carries no accept tag, so an accepting state is only reached after
consuming at least one character, and every emitted token has length at
least one. -/
theorem scanner_token_nonempty :
    (getSt theGraph 0).t = none ∧
    ∀ (str : List Char) (tk : Token), tk ∈ run str → 1 ≤ tk.text.length := by
  constructor
  · rfl
  · intro str tk htk
    unfold run runWith at htk
    refine runAux_tokens (fun tk => 1 ≤ tk.text.length) ?_ str.length str tk htk
    intro orig k a hb
    have hp := bestAccept_pos theGraph (orig.map lowerChar) 0 k a hb
    have hw := wLen_le_length theGraph (orig.map lowerChar) 0
    simp only [List.length_map] at hw
    simp only [List.length_take]
    omega

theorem scanner_token_nonempty_witness :
    1 ≤ (Token.mk Tok.DOMAIN (("a").toList)).text.length :=
  scanner_token_nonempty.2 (("a").toList) ⟨Tok.DOMAIN, ("a").toList⟩
    (by decide)

theorem sym_state_dead :
    ∀ (cs : List Char), bestAccept theGraph 50 cs = none := by
  intro cs
  cases cs with
  | nil => rfl
  | cons c rest =>
    unfold bestAccept
    have hn : next theGraph 50 c = none := by
      unfold next
      have hj : (getSt theGraph 50).j = [] := by decide
      have hd : (getSt theGraph 50).d = none := by decide
      rw [hj, hd]
      rfl
    rw [hn]

/-- C4: run never fails on any input: it is total, an empty input yields
an empty token sequence, and every character without a
character-specific transition out of the start state is consumed alone
through the start state's default transition as a one-character
catch-all symbol token. -/
theorem scanner_fallback_sym :
    run ([] : List Char) = [] ∧
    ∀ (o : Char) (rest : List Char),
      lookupJ (getSt theGraph 0).j (lowerChar o) = none →
      run (o :: rest) = ⟨Tok.SYM, [o]⟩ :: run rest := by
  constructor
  · rfl
  · intro o rest h
    unfold run runWith
    have hn : next theGraph 0 (lowerChar o) = some 50 := by
      unfold next
      rw [h]
      decide
    have hb : bestAccept theGraph 0 (lowerChar o :: rest.map lowerChar) =
        some (1, 50) := by
      unfold bestAccept
      rw [hn]
      simp only [sym_state_dead]
      rw [if_pos (by decide : accepts theGraph 50 = true)]
    simp only [List.map_cons, List.length_cons]
    rw [runAux_cons theGraph 0 (rest.length + 1) 1 50
      (lowerChar o :: rest.map lowerChar) (o :: rest) (by omega) hb]
    simp only [Nat.add_sub_cancel, List.take_succ_cons, List.take_zero,
      List.drop_succ_cons, List.drop_zero]
    rfl

theorem scanner_fallback_sym_witness :
    run ('~' :: ("a").toList) = ⟨Tok.SYM, ['~']⟩ :: run (("a").toList) :=
  scanner_fallback_sym.2 '~' (("a").toList) (by decide)

theorem walk_step (g : Graph) :
    ∀ (cs : List Char) (s j b : Nat),
    (walkStates g s cs)[j]? = some b →
    ∃ c, cs[j]? = some c ∧
      ((j = 0 ∧ next g s c = some b) ∨
        (1 ≤ j ∧ ∃ p, (walkStates g s cs)[j - 1]? = some p ∧
          next g p c = some b)) := by
  intro cs
  induction cs with
  | nil => intro s j b h; simp [walkStates] at h
  | cons c rest ih =>
    intro s j b h
    unfold walkStates at h ⊢
    cases hn : next g s c with
    | none => rw [hn] at h; simp at h
    | some s2 =>
      rw [hn] at h
      simp only at h ⊢
      cases j with
      | zero =>
        simp only [List.getElem?_cons_zero, Option.some.injEq] at h
        subst h
        exact ⟨c, by simp, Or.inl ⟨rfl, hn⟩⟩
      | succ i =>
        simp only [List.getElem?_cons_succ] at h
        obtain ⟨c2, hc2, hd⟩ := ih s2 i b h
        refine ⟨c2, by simpa using hc2, Or.inr ⟨by omega, ?_⟩⟩
        rcases hd with ⟨hj0, hnext⟩ | ⟨hj1, p, hp, hnext⟩
        · subst hj0
          exact ⟨s2, by simp, hnext⟩
        · refine ⟨p, ?_, hnext⟩
          simp only [Nat.add_sub_cancel]
          obtain ⟨m, rfl⟩ : ∃ m, i = m + 1 := ⟨i - 1, by omega⟩
          simpa using hp

/-- Every state visited by a walk is entered through a transition. -/
theorem walk_target_ne_start :
    ∀ (cs : List Char) (j p : Nat),
    (walkStates theGraph 0 cs)[j]? = some p → p ≠ 0 := by
  intro cs j p hp
  obtain ⟨c3, _, hd3⟩ := walk_step theGraph cs 0 j p hp
  rcases hd3 with ⟨_, hn3⟩ | ⟨_, q, _, hn3⟩
  · exact next_target_ne_start 0 c3 p hn3
  · exact next_target_ne_start q c3 p hn3

/-- Character edges with a non-accepting target are always labeled with
a hyphen: the dedicated hyphen state is the only non-accepting
transition target in the built automaton. -/
def nonAcceptJumpHyphen : Bool :=
  (List.range theGraph.length).all fun i =>
    (getSt theGraph i).j.all fun p => accepts theGraph p.2 || (p.1 == '-')

theorem nonAcceptJumpHyphen_true : nonAcceptJumpHyphen = true := by decide

/-- The configured literal keyword lists: top-level domains, scheme
names with their secure variants, and localhost. -/
def configuredLiterals : List (List Char) :=
  tlds ++ [("file").toList, ("ftp").toList, ("ftps").toList,
    ("http").toList, ("https").toList, ("localhost").toList]

/-- C3, counterexample: scanning the input a---------- (one letter
followed by ten hyphens) stalls with a rollback distance of 10, which
exceeds the length of every configured literal (the longest, localhost,
has 9 characters).  The rollback distance is not bounded by the longest
configured literal. -/
theorem scanner_rollback_bound_cex :
    rollbackOf ('a' :: List.replicate 10 '-') = 10 ∧
    (configuredLiterals.map List.length).all (fun n => n < 10) = true := by
  constructor
  · decide
  · decide

/-- C3 (amended): run terminates — from a non-empty remainder the
matching walk always finds an accepting state (the start state's
default transition leads to the accepting one-character catch-all
symbol state), the emitted token consumes at least one character, and
the rollback distance equals the number of characters walked past the
last accepting state, every one of which is a hyphen.  The rollback is
therefore bounded by the longest run of consecutive hyphens in the
input, not by the longest configured literal. -/
theorem scanner_termination_rollback :
    (∀ (c : Char) (cs : List Char),
      (bestAccept theGraph 0 (c :: cs)).isSome = true) ∧
    (∀ (lower : List Char) (k a : Nat),
      bestAccept theGraph 0 lower = some (k, a) →
      1 ≤ k ∧ rollbackOf lower = ((wLen theGraph 0 lower - k : Nat) : Int)) ∧
    (∀ (lower : List Char) (k a j : Nat),
      bestAccept theGraph 0 lower = some (k, a) →
      k ≤ j → j < wLen theGraph 0 lower → lower[j]? = some '-') := by
  refine ⟨?_, ?_, ?_⟩
  · intro c cs
    obtain ⟨ka, hka⟩ := bestAccept_start_cons c cs
    rw [hka]
    rfl
  · intro lower k a hb
    refine ⟨(bestAccept_pos theGraph lower 0 k a hb).1, ?_⟩
    unfold rollbackOf
    rw [innerLoop_accept theGraph lower 0 k a 0 none (-1) hb]
  · intro lower k a j hb hkj hjw
    have hk1 := (bestAccept_pos theGraph lower 0 k a hb).1
    have hlen : j < (walkStates theGraph 0 lower).length := by
      rw [← wLen_eq_length]
      exact hjw
    obtain ⟨b, hbj⟩ : ∃ b, (walkStates theGraph 0 lower)[j]? = some b :=
      ⟨_, List.getElem?_eq_getElem hlen⟩
    have hnon : accepts theGraph b = false := by
      have hall := bestAccept_drop_all theGraph lower 0 k a hb
      have hj2 : ((walkStates theGraph 0 lower).drop k)[j - k]? = some b := by
        rw [List.getElem?_drop]
        rw [(by omega : k + (j - k) = j)]
        exact hbj
      have hmem : b ∈ (walkStates theGraph 0 lower).drop k :=
        List.getElem?_mem hj2
      have := List.all_eq_true.mp hall b hmem
      simpa using this
    obtain ⟨c, hc, hd⟩ := walk_step theGraph lower 0 j b hbj
    rcases hd with ⟨hj0, hnext⟩ | ⟨hj1, p, hp, hnext⟩
    · omega
    · have hpne : p ≠ 0 := walk_target_ne_start lower (j - 1) p hp
      rw [next_eq_lookup p hpne c] at hnext
      have hfact := jump_fact (fun q => accepts theGraph q.2 || (q.1 == '-'))
        nonAcceptJumpHyphen_true p c b hnext
      simp only [hnon, Bool.false_or, beq_iff_eq] at hfact
      rw [hfact] at hc
      exact hc

theorem scanner_termination_rollback_witness :
    (bestAccept theGraph 0 ('a' :: List.replicate 10 '-')).isSome = true ∧
    (1 ≤ 1 ∧ rollbackOf ('a' :: List.replicate 10 '-') =
      ((wLen theGraph 0 ('a' :: List.replicate 10 '-') - 1 : Nat) : Int)) ∧
    ('a' :: List.replicate 10 '-')[5]? = some '-' :=
  ⟨scanner_termination_rollback.1 'a' (List.replicate 10 '-'),
    scanner_termination_rollback.2.1 ('a' :: List.replicate 10 '-') 1 20
      (by decide),
    scanner_termination_rollback.2.2 ('a' :: List.replicate 10 '-') 1 20 5
      (by decide) (by decide) (by decide)⟩

/-- Membership test on a character list (used to reason about the
whitespace class). -/
def memChar : List Char → Char → Bool
  | [], _ => false
  | d :: rest, c => if d = c then true else memChar rest c

theorem lowerChar_shift_ne (m : Nat) (h1 : 97 ≤ m) (h2 : m ≤ 122) :
    Char.ofNat m ≠ ':' ∧ Char.ofNat m ≠ '\n' ∧
    memChar WHITESPACE (Char.ofNat m) = false := by
  interval_cases m <;> exact ⟨by decide, by decide, by decide⟩

theorem lowerChar_colon (c : Char) (h : lowerChar c = ':') : c = ':' := by
  unfold lowerChar at h
  by_cases hr : 65 ≤ c.toNat ∧ c.toNat ≤ 90
  · rw [if_pos hr] at h
    exact absurd h (lowerChar_shift_ne (c.toNat + 32) (by omega) (by omega)).1
  · rwa [if_neg hr] at h

/-- No transition out of the start state reaches a protocol-tagged
state: the colon-delimited protocol state sits at depth at least five. -/
def startJumpNoProtocol : Bool :=
  ((getSt theGraph 0).j.all fun p =>
    (getSt theGraph p.2).t != some Tok.PROTOCOL) &&
    (match (getSt theGraph 0).d with
     | some t => (getSt theGraph t).t != some Tok.PROTOCOL
     | none => true)

theorem startJumpNoProtocol_true : startJumpNoProtocol = true := by decide

/-- Character edges into protocol-tagged states are always labeled with
the colon. -/
def protocolJumpColon : Bool :=
  (List.range theGraph.length).all fun i =>
    (getSt theGraph i).j.all fun p =>
      ((getSt theGraph p.2).t != some Tok.PROTOCOL) || (p.1 == ':')

theorem protocolJumpColon_true : protocolJumpColon = true := by decide

theorem startNextNotProtocol (c : Char) (a : Nat)
    (h : next theGraph 0 c = some a) :
    (getSt theGraph a).t ≠ some Tok.PROTOCOL := by
  have hok := startJumpNoProtocol_true
  unfold startJumpNoProtocol at hok
  simp only [Bool.and_eq_true] at hok
  unfold next at h
  cases hl : lookupJ (getSt theGraph 0).j c with
  | some t2 =>
    rw [hl] at h
    simp only [Option.some.injEq] at h
    subst h
    have := List.all_eq_true.mp hok.1 (c, t2) (lookupJ_mem _ _ _ hl)
    simpa using this
  | none =>
    rw [hl] at h
    simp only at h
    rw [h] at hok
    simpa using hok.2

/-- C5: for each configured scheme literal (file, ftp, http and the
secure variants ftps, https) a protocol-category token is emitted only
once the delimiting colon has been consumed: every protocol token ends
in a colon, each scheme followed by a colon scans as a single protocol
token, each bare scheme word scans as a domain-label token, and
https:// scans as the protocol token https: followed by two slash
tokens. -/
theorem scanner_protocol_gating :
    (∀ (str : List Char) (tk : Token), tk ∈ run str →
      tk.tok = Tok.PROTOCOL → tk.text.getLast? = some ':') ∧
    run (("file:").toList) = [⟨Tok.PROTOCOL, ("file:").toList⟩] ∧
    run (("ftp:").toList) = [⟨Tok.PROTOCOL, ("ftp:").toList⟩] ∧
    run (("http:").toList) = [⟨Tok.PROTOCOL, ("http:").toList⟩] ∧
    run (("ftps:").toList) = [⟨Tok.PROTOCOL, ("ftps:").toList⟩] ∧
    run (("https:").toList) = [⟨Tok.PROTOCOL, ("https:").toList⟩] ∧
    run (("file").toList) = [⟨Tok.DOMAIN, ("file").toList⟩] ∧
    run (("ftp").toList) = [⟨Tok.DOMAIN, ("ftp").toList⟩] ∧
    run (("http").toList) = [⟨Tok.DOMAIN, ("http").toList⟩] ∧
    run (("ftps").toList) = [⟨Tok.DOMAIN, ("ftps").toList⟩] ∧
    run (("https").toList) = [⟨Tok.DOMAIN, ("https").toList⟩] ∧
    run (("https://").toList) =
      [⟨Tok.PROTOCOL, ("https:").toList⟩, ⟨Tok.SLASH, ("/").toList⟩,
        ⟨Tok.SLASH, ("/").toList⟩] := by
  refine ⟨?_, by decide, by decide, by decide, by decide, by decide, by decide,
    by decide, by decide, by decide, by decide, by decide⟩
  intro str tk htk hpro
  unfold run runWith at htk
  refine runAux_tokens
    (fun tk => tk.tok = Tok.PROTOCOL → tk.text.getLast? = some ':')
    ?_ str.length str tk htk hpro
  intro orig k a hb hemit
  have hp := bestAccept_pos theGraph (orig.map lowerChar) 0 k a hb
  have htag : (getSt theGraph a).t = some Tok.PROTOCOL := by
    rw [accepts_emit theGraph a hp.2.2]
    rw [show emit theGraph a = Tok.PROTOCOL from hemit]
  obtain ⟨c, hc, hd⟩ := bestAccept_last_edge theGraph (orig.map lowerChar) 0 k a hb
  have hcolon : c = ':' := by
    rcases hd with ⟨hk1, hnext⟩ | ⟨hk2, p, q, d, hq, hnext⟩
    · exact absurd htag (startNextNotProtocol c a hnext)
    · have hpne : p ≠ 0 := next_target_ne_start q d p hq
      rw [next_eq_lookup p hpne c] at hnext
      have hfact := jump_fact
        (fun r => ((getSt theGraph r.2).t != some Tok.PROTOCOL) || (r.1 == ':'))
        protocolJumpColon_true p c a hnext
      simp only [htag, bne_self_eq_false, Bool.false_or, beq_iff_eq] at hfact
      exact hfact
  subst hcolon
  rw [List.getElem?_map] at hc
  cases ho : orig[k - 1]? with
  | none => rw [ho] at hc; simp at hc
  | some o =>
    rw [ho] at hc
    simp only [Option.map_some', Option.some.injEq] at hc
    have ho2 : o = ':' := lowerChar_colon o hc
    subst ho2
    have hklen : k ≤ orig.length := by
      have hw := wLen_le_length theGraph (orig.map lowerChar) 0
      simp only [List.length_map] at hw
      omega
    have hlen2 : (orig.take k).length = k := by
      simp only [List.length_take]
      omega
    show (orig.take k).getLast? = some ':'
    rw [List.getLast?_eq_getElem?, hlen2,
      List.getElem?_take_of_lt (by omega : k - 1 < k)]
    exact ho

theorem scanner_protocol_gating_witness :
    (Token.mk Tok.PROTOCOL (("https:").toList)).text.getLast? = some ':' :=
  scanner_protocol_gating.1 (("https:").toList)
    ⟨Tok.PROTOCOL, ("https:").toList⟩ (by decide) rfl

theorem memChar_cases :
    ∀ (l : List Char) (c : Char), memChar l c = true → c ∈ l := by
  intro l
  induction l with
  | nil => intro c h; simp [memChar] at h
  | cons d rest ih =>
    intro c h
    unfold memChar at h
    by_cases hd : d = c
    · subst hd
      exact List.mem_cons_self d rest
    · rw [if_neg hd] at h
      exact List.mem_cons_of_mem d (ih c h)

theorem ws_toNat_small (o : Char) (h : memChar WHITESPACE o = true) :
    ¬ (65 ≤ o.toNat ∧ o.toNat ≤ 90) := by
  have hm := memChar_cases WHITESPACE o h
  simp only [WHITESPACE, List.mem_cons, List.not_mem_nil, or_false] at hm
  rcases hm with rfl | rfl | rfl | rfl | rfl <;> decide

theorem ws_lowerChar (o : Char) (h : memChar WHITESPACE o = true) :
    lowerChar o = o := by
  unfold lowerChar
  rw [if_neg (ws_toNat_small o h)]

theorem ws_range_false (c : Char) (hr : 65 ≤ c.toNat ∧ c.toNat ≤ 90) :
    memChar WHITESPACE c = false := by
  cases hmc : memChar WHITESPACE c with
  | false => rfl
  | true => exact absurd hr (ws_toNat_small c hmc)

theorem memChar_ws_lowerChar (c : Char) :
    memChar WHITESPACE (lowerChar c) = memChar WHITESPACE c := by
  unfold lowerChar
  by_cases hr : 65 ≤ c.toNat ∧ c.toNat ≤ 90
  · rw [if_pos hr,
      (lowerChar_shift_ne (c.toNat + 32) (by omega) (by omega)).2.2,
      ws_range_false c hr]
  · rw [if_neg hr]

theorem start_ws (o : Char) (h : memChar WHITESPACE o = true) :
    next theGraph 0 o = some 4 := by
  have hm := memChar_cases WHITESPACE o h
  simp only [WHITESPACE, List.mem_cons, List.not_mem_nil, or_false] at hm
  rcases hm with rfl | rfl | rfl | rfl | rfl <;> decide

theorem next_ws (c : Char) :
    next theGraph 4 c = if memChar WHITESPACE c then some 4 else none := by
  have hst : getSt theGraph 4 =
      ⟨[(' ', 4), ('\x0c', 4), ('\r', 4), ('\t', 4), ('\x0b', 4)],
        none, some Tok.WS⟩ := by decide
  unfold next
  rw [hst]
  simp only [lookupJ, memChar, WHITESPACE]
  split_ifs <;> simp_all

theorem ws_best :
    ∀ (cs : List Char),
    bestAccept theGraph 4 cs =
      (match (cs.takeWhile (fun c => memChar WHITESPACE c)).length with
       | 0 => none
       | m + 1 => some (m + 1, 4)) := by
  intro cs
  induction cs with
  | nil => rfl
  | cons c rest ih =>
    unfold bestAccept
    rw [next_ws c]
    by_cases hw : memChar WHITESPACE c = true
    · rw [if_pos hw]
      simp only
      rw [ih, List.takeWhile_cons, hw]
      cases htw : (rest.takeWhile (fun c => memChar WHITESPACE c)).length with
      | zero => simp [htw, (by decide : accepts theGraph 4 = true)]
      | succ m => simp [htw]
    · rw [if_neg hw, List.takeWhile_cons]
      simp only [hw]
      rfl

theorem take_len_takeWhile (p : Char → Bool) :
    ∀ (l : List Char), l.take (l.takeWhile p).length = l.takeWhile p := by
  intro l
  induction l with
  | nil => rfl
  | cons x xs ih =>
    rw [List.takeWhile_cons]
    by_cases hp : p x = true
    · simp only [hp, if_true, List.length_cons, List.take_succ_cons, ih]
    · simp only [hp]
      rfl

theorem drop_len_takeWhile (p : Char → Bool) :
    ∀ (l : List Char), l.drop (l.takeWhile p).length = l.dropWhile p := by
  intro l
  induction l with
  | nil => rfl
  | cons x xs ih =>
    rw [List.takeWhile_cons, List.dropWhile_cons]
    by_cases hp : p x = true
    · simp only [hp, if_true, List.length_cons, List.drop_succ_cons, ih]
    · simp only [hp]
      rfl

theorem takeWhile_ws_map :
    ∀ (l : List Char),
    (l.map lowerChar).takeWhile (fun c => memChar WHITESPACE c) =
      (l.takeWhile (fun c => memChar WHITESPACE c)).map lowerChar := by
  intro l
  induction l with
  | nil => rfl
  | cons x xs ih =>
    simp only [List.map_cons, List.takeWhile_cons, memChar_ws_lowerChar]
    by_cases hp : memChar WHITESPACE x = true
    · simp only [hp, if_true, List.map_cons, ih]
    · simp only [hp]
      rfl

theorem runAux_nil (g : Graph) (start fuel : Nat) (orig : List Char) :
    runAux g start fuel ([] : List Char) orig = [] := by
  cases fuel with
  | zero => rfl
  | succ f => simp [runAux]

/-- The scan result does not depend on the exact fuel value, as long as
the fuel covers the remaining input length (each iteration consumes at
least one character). -/
theorem runAux_fuel :
    ∀ (fuel1 fuel2 : Nat) (lower orig : List Char),
    lower.length ≤ fuel1 → lower.length ≤ fuel2 →
    runAux theGraph 0 fuel1 lower orig = runAux theGraph 0 fuel2 lower orig := by
  intro fuel1
  induction fuel1 with
  | zero =>
    intro fuel2 lower orig h1 h2
    have : lower = [] := List.length_eq_zero.mp (by omega)
    subst this
    rw [runAux_nil, runAux_nil]
  | succ f ih =>
    intro fuel2 lower orig h1 h2
    cases lower with
    | nil => rw [runAux_nil, runAux_nil]
    | cons c rest =>
      obtain ⟨⟨k, a⟩, hb⟩ := bestAccept_start_cons c rest
      have hp := bestAccept_pos theGraph (c :: rest) 0 k a hb
      have hw := wLen_le_length theGraph (c :: rest) 0
      rw [runAux_cons theGraph 0 (f + 1) k a (c :: rest) orig (by omega) hb,
        runAux_cons theGraph 0 fuel2 k a (c :: rest) orig (by simp at h2; omega) hb]
      have hlen : ((c :: rest).drop k).length ≤ f := by
        simp only [List.length_drop]
        simp only [List.length_cons] at h1 ⊢
        omega
      have hlen2 : ((c :: rest).drop k).length ≤ fuel2 - 1 := by
        simp only [List.length_drop]
        simp only [List.length_cons] at h2 ⊢
        omega
      simp only [Nat.add_sub_cancel]
      rw [ih (fuel2 - 1) ((c :: rest).drop k) (orig.drop k) hlen hlen2]

theorem nl_state_dead :
    ∀ (cs : List Char), bestAccept theGraph 19 cs = none := by
  intro cs
  cases cs with
  | nil => rfl
  | cons c rest =>
    unfold bestAccept
    have hn : next theGraph 19 c = none := by
      unfold next
      have hj : (getSt theGraph 19).j = [] := by decide
      have hd : (getSt theGraph 19).d = none := by decide
      rw [hj, hd]
      rfl
    rw [hn]

/-- C6: every maximal run of non-newline whitespace collapses into one
whitespace token carrying the entire run (the whitespace state loops on
whitespace and stalls on anything else), while a newline always forms
its own singleton token, never merged with adjacent whitespace. -/
theorem scanner_whitespace_newline :
    (∀ (o : Char) (rest : List Char), memChar WHITESPACE o = true →
      run (o :: rest) =
        ⟨Tok.WS, (o :: rest).takeWhile (fun c => memChar WHITESPACE c)⟩ ::
          run ((o :: rest).dropWhile (fun c => memChar WHITESPACE c))) ∧
    (∀ (rest : List Char),
      run ('\n' :: rest) = ⟨Tok.NL, ['\n']⟩ :: run rest) ∧
    run (("a   b").toList) =
      [⟨Tok.DOMAIN, ("a").toList⟩, ⟨Tok.WS, ("   ").toList⟩,
        ⟨Tok.DOMAIN, ("b").toList⟩] ∧
    run (("a\nb").toList) =
      [⟨Tok.DOMAIN, ("a").toList⟩, ⟨Tok.NL, ("\n").toList⟩,
        ⟨Tok.DOMAIN, ("b").toList⟩] := by
  refine ⟨?_, ?_, by decide, by decide⟩
  · intro o rest hws
    unfold run runWith
    simp only [List.map_cons, List.length_cons]
    have hb : bestAccept theGraph 0 (lowerChar o :: rest.map lowerChar) =
        some (((o :: rest).takeWhile (fun c => memChar WHITESPACE c)).length,
          4) := by
      unfold bestAccept
      rw [ws_lowerChar o hws, start_ws o hws]
      simp only
      rw [ws_best (rest.map lowerChar), takeWhile_ws_map rest]
      simp only [List.length_map]
      rw [List.takeWhile_cons, hws]
      simp only [if_true, List.length_cons]
      cases htw : (rest.takeWhile (fun c => memChar WHITESPACE c)).length with
      | zero => simp [(by decide : accepts theGraph 4 = true)]
      | succ m => simp
    have hk1 : 1 ≤ ((o :: rest).takeWhile
        (fun c => memChar WHITESPACE c)).length := by
      rw [List.takeWhile_cons, hws]
      simp
    rw [runAux_cons theGraph 0 (rest.length + 1)
      (((o :: rest).takeWhile (fun c => memChar WHITESPACE c)).length) 4
      (lowerChar o :: rest.map lowerChar) (o :: rest) (by omega) hb]
    rw [take_len_takeWhile (fun c => memChar WHITESPACE c) (o :: rest)]
    rw [show emit theGraph 4 = Tok.WS from by decide]
    simp only [Nat.add_sub_cancel]
    rw [← List.map_cons, ← List.map_drop]
    rw [runAux_fuel rest.length
      (((o :: rest).drop
        (((o :: rest).takeWhile (fun c => memChar WHITESPACE c)).length)).length)
      _ _
      (by simp only [List.length_map, List.length_drop, List.length_cons]; omega)
      (by simp)]
    rw [drop_len_takeWhile (fun c => memChar WHITESPACE c) (o :: rest)]
  · intro rest
    unfold run runWith
    simp only [List.map_cons, List.length_cons]
    rw [show lowerChar '\n' = '\n' from by decide]
    have hb : bestAccept theGraph 0 ('\n' :: rest.map lowerChar) =
        some (1, 19) := by
      unfold bestAccept
      rw [show next theGraph 0 '\n' = some 19 from by decide]
      simp only [nl_state_dead]
      rw [if_pos (by decide : accepts theGraph 19 = true)]
    rw [runAux_cons theGraph 0 (rest.length + 1) 1 19
      ('\n' :: rest.map lowerChar) ('\n' :: rest) (by omega) hb]
    simp only [Nat.add_sub_cancel, List.take_succ_cons, List.take_zero,
      List.drop_succ_cons, List.drop_zero]
    rfl

theorem scanner_whitespace_newline_witness :
    run (' ' :: ("  b").toList) =
        ⟨Tok.WS, (' ' :: ("  b").toList).takeWhile
          (fun c => memChar WHITESPACE c)⟩ ::
          run ((' ' :: ("  b").toList).dropWhile
            (fun c => memChar WHITESPACE c)) ∧
    run ('\n' :: ("b").toList) = ⟨Tok.NL, ['\n']⟩ :: run (("b").toList) :=
  ⟨scanner_whitespace_newline.1 ' ' (("  b").toList) (by decide),
    scanner_whitespace_newline.2.1 (("b").toList)⟩

/-- Character edges into accepting states are never labeled with a
hyphen: the only hyphen edges lead to the non-accepting dedicated
hyphen state. -/
def acceptJumpNotHyphen : Bool :=
  (List.range theGraph.length).all fun i =>
    (getSt theGraph i).j.all fun p => !(accepts theGraph p.2) || (p.1 != '-')

theorem acceptJumpNotHyphen_true : acceptJumpNotHyphen = true := by decide

/-- C7, counterexample: tokenizing foo- (the claim's own example) emits
the domain token foo followed by a one-character catch-all symbol token
whose text is the bare hyphen — an emitted token that does end on a
trailing hyphen. -/
theorem scanner_trailing_hyphen_cex :
    run (("foo-").toList) =
      [⟨Tok.DOMAIN, ("foo").toList⟩, ⟨Tok.SYM, ("-").toList⟩] ∧
    (Token.mk Tok.SYM (("-").toList)).text.getLast? = some '-' :=
  ⟨by decide, by decide⟩

/-- C7 (amended): no token spanning two or more characters ends on a
trailing hyphen — the hyphen state carries no accept tag, so scanning
backtracks past trailing hyphens, which are then emitted alone as
one-character catch-all symbol tokens; foo-bar.com keeps its hyphen
inside one continuous domain-label token, and foo- scans as the domain
token foo followed by a single-character symbol token for the hyphen. -/
theorem scanner_trailing_hyphen :
    (∀ (str : List Char) (tk : Token), tk ∈ run str →
      2 ≤ tk.text.length → tk.text.getLast? ≠ some '-') ∧
    run (("foo-bar.com").toList) =
      [⟨Tok.DOMAIN, ("foo-bar").toList⟩, ⟨Tok.DOT, (".").toList⟩,
        ⟨Tok.TLD, ("com").toList⟩] ∧
    run (("foo-").toList) =
      [⟨Tok.DOMAIN, ("foo").toList⟩, ⟨Tok.SYM, ("-").toList⟩] := by
  refine ⟨?_, by decide, by decide⟩
  intro str tk htk h2
  unfold run runWith at htk
  refine runAux_tokens
    (fun tk => 2 ≤ tk.text.length → tk.text.getLast? ≠ some '-')
    ?_ str.length str tk htk h2
  intro orig k a hb hlen2 hlast
  have hp := bestAccept_pos theGraph (orig.map lowerChar) 0 k a hb
  have hklen : k ≤ orig.length := by
    have hw := wLen_le_length theGraph (orig.map lowerChar) 0
    simp only [List.length_map] at hw
    omega
  have hk2 : 2 ≤ k := by
    simp only [List.length_take] at hlen2
    omega
  obtain ⟨c, hc, hd⟩ :=
    bestAccept_last_edge theGraph (orig.map lowerChar) 0 k a hb
  have hcne : c ≠ '-' := by
    rcases hd with ⟨hk1, _⟩ | ⟨_, p, q, d, hq, hnext⟩
    · omega
    · have hpne : p ≠ 0 := next_target_ne_start q d p hq
      rw [next_eq_lookup p hpne c] at hnext
      have hfact := jump_fact
        (fun r => !(accepts theGraph r.2) || (r.1 != '-'))
        acceptJumpNotHyphen_true p c a hnext
      simp only [hp.2.2, Bool.not_true, Bool.false_or, bne_iff_ne] at hfact
      exact hfact
  have hlen3 : (orig.take k).length = k := by
    simp only [List.length_take]
    omega
  rw [List.getLast?_eq_getElem?, hlen3,
    List.getElem?_take_of_lt (by omega : k - 1 < k)] at hlast
  rw [List.getElem?_map, hlast] at hc
  simp only [Option.map_some', Option.some.injEq] at hc
  refine hcne ?_
  rw [← hc]
  decide

theorem scanner_trailing_hyphen_witness :
    (Token.mk Tok.DOMAIN (("foo-bar").toList)).text.getLast? ≠ some '-' :=
  scanner_trailing_hyphen.1 (("foo-bar.com").toList)
    ⟨Tok.DOMAIN, ("foo-bar").toList⟩ (by decide) (by decide)

/-- The token category sequence and the token boundaries depend only on
the lowercased working copy used for matching; the original text
supplies only the token texts. -/
theorem runAux_shape :
    ∀ (fuel : Nat) (lower o1 o2 : List Char),
    lower.length = o1.length → lower.length = o2.length →
    (runAux theGraph 0 fuel lower o1).map Token.tok =
      (runAux theGraph 0 fuel lower o2).map Token.tok ∧
    (runAux theGraph 0 fuel lower o1).map (fun tk => tk.text.length) =
      (runAux theGraph 0 fuel lower o2).map (fun tk => tk.text.length) := by
  intro fuel
  induction fuel with
  | zero => intro lower o1 o2 h1 h2; simp [runAux]
  | succ f ih =>
    intro lower o1 o2 h1 h2
    cases lower with
    | nil => rw [runAux_nil, runAux_nil]; simp
    | cons c rest =>
      obtain ⟨⟨k, a⟩, hb⟩ := bestAccept_start_cons c rest
      have hp := bestAccept_pos theGraph (c :: rest) 0 k a hb
      have hw := wLen_le_length theGraph (c :: rest) 0
      rw [runAux_cons theGraph 0 (f + 1) k a (c :: rest) o1 (by omega) hb,
        runAux_cons theGraph 0 (f + 1) k a (c :: rest) o2 (by omega) hb]
      simp only [List.map_cons, Nat.add_sub_cancel]
      have hrec := ih ((c :: rest).drop k) (o1.drop k) (o2.drop k)
        (by simp only [List.length_drop, h1]) (by simp only [List.length_drop, h2])
      refine ⟨by rw [hrec.1], ?_⟩
      rw [hrec.2]
      simp only [List.length_take]
      congr 1
      simp only [List.length_cons] at h1 h2
      omega

/-- C8: changing the case of ASCII letters in the input changes only
the emitted token texts, never the token boundaries or the category
sequence: matching runs on the selectively lowercased working copy (A-Z
lowercased, length unchanged), while each token's text is sliced from
the original unmodified string. -/
theorem scanner_case_invariance :
    (∀ (s t : List Char), s.map lowerChar = t.map lowerChar →
      (run s).map Token.tok = (run t).map Token.tok ∧
      (run s).map (fun tk => tk.text.length) =
        (run t).map (fun tk => tk.text.length)) ∧
    run (("ExAmple.COM").toList) =
      [⟨Tok.DOMAIN, ("ExAmple").toList⟩, ⟨Tok.DOT, (".").toList⟩,
        ⟨Tok.TLD, ("COM").toList⟩] ∧
    (run (("ExAmple.COM").toList)).map Token.tok =
      (run (("example.com").toList)).map Token.tok := by
  refine ⟨?_, by decide, by decide⟩
  intro s t hst
  have hlen : s.length = t.length := by
    have h2 := congrArg List.length hst
    simpa using h2
  unfold run runWith
  rw [hst, hlen]
  exact runAux_shape t.length (t.map lowerChar) s t
    (by simp [hlen]) (by simp)

theorem scanner_case_invariance_witness :
    (run (("ExAmple.COM").toList)).map Token.tok =
      (run (("example.com").toList)).map Token.tok ∧
    (run (("ExAmple.COM").toList)).map (fun tk => tk.text.length) =
      (run (("example.com").toList)).map (fun tk => tk.text.length) :=
  scanner_case_invariance.1 (("ExAmple.COM").toList)
    (("example.com").toList) (by decide)

/-- C9, counterexample: constructing the automaton from an empty
literal list does not fail fast: construction succeeds, and the
misconfiguration surfaces only during scanning — with no top-level
domains configured, com scans as three catch-all symbol tokens instead
of a top-level-domain token. -/
theorem scanner_build_failfast_cex :
    0 < (buildScanner []).length ∧
    runWith (buildScanner []) (("com").toList) =
      [⟨Tok.SYM, ("c").toList⟩, ⟨Tok.SYM, ("o").toList⟩,
        ⟨Tok.SYM, ("m").toList⟩] :=
  ⟨by decide, by decide⟩

/-- C9 (amended): build-time misconfiguration is not detected at
construction time: inserting an empty-string literal is a silent no-op,
and building from an empty or degenerate literal list succeeds without
any error, producing an automaton whose misbehaviour is observable only
during scanning (com then yields catch-all symbol tokens, whereas the
fully configured automaton yields a top-level-domain token). -/
theorem scanner_build_total :
    (∀ (g : Graph) (s : Nat) (tailT interT : Tok),
      stateify g [] s tailT interT = (g, [])) ∧
    runWith (buildScanner [[]]) (("com").toList) =
      [⟨Tok.SYM, ("c").toList⟩, ⟨Tok.SYM, ("o").toList⟩,
        ⟨Tok.SYM, ("m").toList⟩] ∧
    runWith theGraph (("com").toList) = [⟨Tok.TLD, ("com").toList⟩] :=
  ⟨fun g s tailT interT => rfl, by decide, by decide⟩
